import Mathlib

/-!
Verification of the store-provider daemon's core components against its
natural-language specification.  The definitions below are shallow
embeddings of the Python sources in src/: the mirror fetcher and sync
engine (android_store/android_store.py, android_store/api.py,
open_store/open_store.py, open_store/api.py), the transactional catalog
stores (android_store/database.py, open_store/database.py), the upgrade
resolvers (android_store/andromeda.py, open_store/open_store.py), the
installed-state store (open_store/database.py), the per-service task
queue and the shared idle supervisor (store_manager/store_manager.py).
-/

namespace StoreProvider

/-! ## Mirror fetcher

Embeds the mirror loop of FDroidInterface.process_repo_file
(src/android_store/android_store.py, lines 130-149): try each mirror of
one source in list order, stop at the first mirror whose download
succeeds, report success iff some mirror succeeded.  The second
component records which mirrors were attempted, in order.
-/

def process_repo_file (outcome : String → Bool) : List String → Bool × List String
  | [] => (false, [])
  | m :: ms =>
    if outcome m then (true, [m])
    else
      let r := process_repo_file outcome ms
      (r.1, m :: r.2)

/-! ## Transactional catalog store

Embeds the SQLite transaction discipline of save_packages_to_db
(src/android_store/database.py, lines 51-94) and save_app_list
(src/open_store/database.py, lines 90-139).  A transaction is a list of
micro-operations executed against a pending buffer; readers observe only
the committed snapshot, which changes solely at the commit operation.
If an operation raises, execution stops with the committed snapshot
untouched (the transaction is never committed).
-/

inductive DBOp (α : Type)
  | deleteAll
  /-- INSERT ... ON CONFLICT(key) DO UPDATE (android store bulk insert). -/
  | insertUpsert (a : α)
  /-- Plain INSERT into a PRIMARY KEY column (open store): raises on a duplicate key. -/
  | insertStrict (a : α)
  | commit
deriving Repr

structure SqlDB (α : Type) where
  committed : List α
  pending : List α
deriving Repr, DecidableEq

/-- Upsert one row into a row list keyed by a key function, as SQLite's
ON CONFLICT DO UPDATE does: replace the row with the same key in place,
or append when the key is new. -/
def upsertRow {α κ : Type} [DecidableEq κ] (key : α → κ) (t : List α) (a : α) : List α :=
  if t.any (fun b => key b = key a) then
    t.map (fun b => if key b = key a then a else b)
  else
    t ++ [a]

def applyOp {α κ : Type} [DecidableEq κ] (key : α → κ) (op : DBOp α) (s : SqlDB α) :
    Except String (SqlDB α) :=
  match op with
  | .deleteAll => .ok { s with pending := [] }
  | .insertUpsert a => .ok { s with pending := upsertRow key s.pending a }
  | .insertStrict a =>
    if s.pending.any (fun b => key b = key a) then .error "UNIQUE constraint failed"
    else .ok { s with pending := s.pending ++ [a] }
  | .commit => .ok { committed := s.pending, pending := s.pending }

/-- Run a list of transaction operations; on the first failing operation,
stop (the caller catches the exception and the transaction is never
committed).  Returns the final database state and the error, if any. -/
def runOps {α κ : Type} [DecidableEq κ] (key : α → κ) :
    List (DBOp α) → SqlDB α → SqlDB α × Option String
  | [], s => (s, none)
  | op :: ops, s =>
    match applyOp key op s with
    | .ok s' => runOps key ops s'
    | .error e => (s, some e)

/-- The operation list executed by save_packages_to_db: BEGIN TRANSACTION,
DELETE FROM apps, executemany upsert-INSERT (skipped when the staged list
is empty), COMMIT. -/
def fdroidReplaceProgram {α : Type} (rows : List α) : List (DBOp α) :=
  DBOp.deleteAll :: (rows.map DBOp.insertUpsert) ++ [DBOp.commit]

/-- The operation list executed by save_app_list: BEGIN TRANSACTION,
DELETE FROM apps, one plain INSERT per app, COMMIT. -/
def openReplaceProgram {α : Type} (rows : List α) : List (DBOp α) :=
  DBOp.deleteAll :: (rows.map DBOp.insertStrict) ++ [DBOp.commit]

lemma applyOp_not_commit_committed {α κ : Type} [DecidableEq κ] (key : α → κ)
    (op : DBOp α) (s s' : SqlDB α) (hop : op ≠ DBOp.commit)
    (h : applyOp key op s = .ok s') : s'.committed = s.committed := by
  cases op with
  | deleteAll => simp [applyOp] at h; subst h; rfl
  | insertUpsert a => simp [applyOp] at h; subst h; rfl
  | insertStrict a =>
    simp only [applyOp] at h
    split at h
    · cases h
    · simp at h; subst h; rfl
  | commit => exact absurd rfl hop

/-- Running any sequence of operations that contains no commit leaves the
committed snapshot unchanged. -/
lemma runOps_no_commit {α κ : Type} [DecidableEq κ] (key : α → κ) :
    ∀ (ops : List (DBOp α)) (s : SqlDB α), DBOp.commit ∉ ops →
      ((runOps key ops s).1).committed = s.committed
  | [], s, _ => rfl
  | op :: ops, s, h => by
    have hop : op ≠ DBOp.commit := fun he => h (he ▸ List.mem_cons_self _ _)
    have hops : DBOp.commit ∉ ops := fun hm => h (List.mem_cons_of_mem _ hm)
    simp only [runOps]
    cases hap : applyOp key op s with
    | ok s' =>
      have := applyOp_not_commit_committed key op s s' hop hap
      rw [runOps_no_commit key ops s' hops, this]
    | error e => rfl

lemma runOps_error_last_commit {α κ : Type} [DecidableEq κ] (key : α → κ) :
    ∀ (pre : List (DBOp α)) (s : SqlDB α) (e : String), DBOp.commit ∉ pre →
      (runOps key (pre ++ [DBOp.commit]) s).2 = some e →
      ((runOps key (pre ++ [DBOp.commit]) s).1).committed = s.committed
  | [], s, e, _, herr => by
    simp [runOps, applyOp] at herr
  | op :: pre, s, e, h, herr => by
    have hop : op ≠ DBOp.commit := fun hc => h (hc ▸ List.mem_cons_self _ _)
    have hpre : DBOp.commit ∉ pre := fun hm => h (List.mem_cons_of_mem _ hm)
    simp only [List.cons_append, runOps] at herr ⊢
    cases hap : applyOp key op s with
    | ok s' =>
      rw [hap] at herr
      have herr' : (runOps key (pre ++ [DBOp.commit]) s').2 = some e := herr
      have hc := applyOp_not_commit_committed key op s s' hop hap
      have hrec := runOps_error_last_commit key pre s' e hpre herr'
      show (runOps key (pre ++ [DBOp.commit]) s').1.committed = s.committed
      rw [hrec, hc]
    | error e' => rfl

lemma runOps_upserts_commit {α κ : Type} [DecidableEq κ] (key : α → κ) :
    ∀ (rows : List α) (s : SqlDB α),
      runOps key (rows.map DBOp.insertUpsert ++ [DBOp.commit]) s =
        (⟨rows.foldl (upsertRow key) s.pending, rows.foldl (upsertRow key) s.pending⟩, none)
  | [], s => by simp [runOps, applyOp]
  | a :: rows, s => by
    simp only [List.map_cons, List.cons_append, runOps, applyOp, List.foldl_cons]
    exact runOps_upserts_commit key rows _

lemma runOps_strict_inserts_commit {α κ : Type} [DecidableEq κ] (key : α → κ) :
    ∀ (rows : List α) (s : SqlDB α),
      (rows.map key).Nodup → (∀ a ∈ rows, key a ∉ s.pending.map key) →
      runOps key (rows.map DBOp.insertStrict ++ [DBOp.commit]) s =
        (⟨s.pending ++ rows, s.pending ++ rows⟩, none)
  | [], s, _, _ => by simp [runOps, applyOp]
  | a :: rows, s, hnd, hfresh => by
    have hka : ¬ s.pending.any (fun b => key b = key a) := by
      simp only [List.any_eq_true, decide_eq_true_eq, not_exists]
      intro b hb
      exact hfresh a (List.mem_cons_self _ _) (hb.2 ▸ List.mem_map_of_mem key hb.1)
    simp only [List.map_cons, List.cons_append, runOps, applyOp, if_neg hka]
    have hnd' : (rows.map key).Nodup := (List.nodup_cons.mp hnd).2
    have hfresh' : ∀ b ∈ rows, key b ∉ (s.pending ++ [a]).map key := by
      intro b hb
      simp only [List.map_append, List.map_cons, List.map_nil, List.mem_append,
        List.mem_singleton, not_or]
      refine ⟨hfresh b (List.mem_cons_of_mem _ hb), ?_⟩
      intro hba
      exact (List.nodup_cons.mp hnd).1 (hba ▸ List.mem_map_of_mem key hb)
    have hrec := runOps_strict_inserts_commit key rows ⟨s.committed, s.pending ++ [a]⟩ hnd' hfresh'
    show runOps key (rows.map DBOp.insertStrict ++ [DBOp.commit])
        ⟨s.committed, s.pending ++ [a]⟩ = _
    rw [hrec]
    simp

lemma commit_not_mem_upsert_map {α : Type} (rows : List α) :
    DBOp.commit ∉ rows.map DBOp.insertUpsert := by
  intro h
  rcases List.mem_map.mp h with ⟨a, _, ha⟩
  cases ha

lemma commit_not_mem_strict_map {α : Type} (rows : List α) :
    DBOp.commit ∉ rows.map DBOp.insertStrict := by
  intro h
  rcases List.mem_map.mp h with ⟨a, _, ha⟩
  cases ha

/-- Claim C3: the catalog store's replace-all operation performs
delete-all followed by bulk insert inside a single transaction: while the
transaction runs (any strict prefix of its operation list) a reader sees
exactly the prior snapshot, never an intermediate state such as an empty
table; if the open store's plain-insert transaction fails before commit
the prior snapshot remains; and a completed run commits exactly the
staged rows. -/
theorem C3_replace_all_atomic {α κ : Type} [DecidableEq κ] (key : α → κ)
    (rows db : List α) :
    (∀ k, k < (fdroidReplaceProgram rows).length →
      ((runOps key ((fdroidReplaceProgram rows).take k) ⟨db, db⟩).1).committed = db)
    ∧ (∀ k, k < (openReplaceProgram rows).length →
      ((runOps key ((openReplaceProgram rows).take k) ⟨db, db⟩).1).committed = db)
    ∧ (∀ e, (runOps key (openReplaceProgram rows) ⟨db, db⟩).2 = some e →
      ((runOps key (openReplaceProgram rows) ⟨db, db⟩).1).committed = db)
    ∧ runOps key (fdroidReplaceProgram rows) ⟨db, db⟩ =
        (⟨rows.foldl (upsertRow key) [], rows.foldl (upsertRow key) []⟩, none)
    ∧ ((rows.map key).Nodup →
        runOps key (openReplaceProgram rows) ⟨db, db⟩ = (⟨rows, rows⟩, none)) := by
  have hfd_pre : DBOp.commit ∉ (DBOp.deleteAll (α := α) :: rows.map DBOp.insertUpsert) := by
    intro h
    rcases List.mem_cons.mp h with h | h
    · cases h
    · exact commit_not_mem_upsert_map rows h
  have hos_pre : DBOp.commit ∉ (DBOp.deleteAll (α := α) :: rows.map DBOp.insertStrict) := by
    intro h
    rcases List.mem_cons.mp h with h | h
    · cases h
    · exact commit_not_mem_strict_map rows h
  refine ⟨?_, ?_, ?_, ?_, ?_⟩
  · intro k hk
    have hlen : (fdroidReplaceProgram rows).length =
        (DBOp.deleteAll (α := α) :: rows.map DBOp.insertUpsert).length + 1 := by
      simp [fdroidReplaceProgram]
    have hk' : k ≤ (DBOp.deleteAll (α := α) :: rows.map DBOp.insertUpsert).length := by
      omega
    have htake : (fdroidReplaceProgram rows).take k =
        (DBOp.deleteAll (α := α) :: rows.map DBOp.insertUpsert).take k := by
      show ((DBOp.deleteAll (α := α) :: rows.map DBOp.insertUpsert) ++ [DBOp.commit]).take k = _
      rw [List.take_append_of_le_length hk']
    rw [htake]
    exact runOps_no_commit key _ _ fun hm => hfd_pre (List.mem_of_mem_take hm)
  · intro k hk
    have hk' : k ≤ (DBOp.deleteAll (α := α) :: rows.map DBOp.insertStrict).length := by
      have : (openReplaceProgram rows).length =
          (DBOp.deleteAll (α := α) :: rows.map DBOp.insertStrict).length + 1 := by
        simp [openReplaceProgram]
      omega
    have htake : (openReplaceProgram rows).take k =
        (DBOp.deleteAll (α := α) :: rows.map DBOp.insertStrict).take k := by
      show ((DBOp.deleteAll (α := α) :: rows.map DBOp.insertStrict) ++ [DBOp.commit]).take k = _
      rw [List.take_append_of_le_length hk']
    rw [htake]
    exact runOps_no_commit key _ _ fun hm => hos_pre (List.mem_of_mem_take hm)
  · intro e herr
    have : openReplaceProgram rows =
        (DBOp.deleteAll (α := α) :: rows.map DBOp.insertStrict) ++ [DBOp.commit] := rfl
    rw [this] at herr ⊢
    exact runOps_error_last_commit key _ _ e hos_pre herr
  · show runOps key (DBOp.deleteAll :: (rows.map DBOp.insertUpsert ++ [DBOp.commit])) _ = _
    simp only [runOps, applyOp]
    exact runOps_upserts_commit key rows ⟨db, []⟩
  · intro hnd
    show runOps key (DBOp.deleteAll :: (rows.map DBOp.insertStrict ++ [DBOp.commit])) _ = _
    simp only [runOps, applyOp]
    have := runOps_strict_inserts_commit key rows ⟨db, []⟩ hnd (by simp)
    simpa using this

theorem C3_replace_all_atomic_witness :
    ((runOps (fun r : Nat × String => r.1)
        ((fdroidReplaceProgram [(1, "a"), (2, "b")]).take 2)
        ⟨[(9, "old")], [(9, "old")]⟩).1).committed = [(9, "old")]
    ∧ runOps (fun r : Nat × String => r.1) (openReplaceProgram [(1, "a"), (2, "b")])
        ⟨[(9, "old")], [(9, "old")]⟩ =
        (⟨[(1, "a"), (2, "b")], [(1, "a"), (2, "b")]⟩, none) := by
  have h := C3_replace_all_atomic (fun r : Nat × String => r.1)
    [(1, "a"), (2, "b")] [(9, "old")]
  exact ⟨h.1 2 (by decide), h.2.2.2.2 (by decide)⟩

lemma process_repo_file_all_fail (outcome : String → Bool) :
    ∀ ms : List String, (∀ m ∈ ms, outcome m = false) →
      process_repo_file outcome ms = (false, ms) := by
  intro ms
  induction ms with
  | nil => intro _; rfl
  | cons m ms ih =>
    intro h
    have hm : outcome m = false := h m (List.mem_cons_self _ _)
    have hms : ∀ x ∈ ms, outcome x = false := fun x hx => h x (List.mem_cons_of_mem _ hx)
    simp only [process_repo_file, hm, Bool.false_eq_true, if_false, ih hms]

/-- Claim C4: the mirror fetch tries the mirrors of one source in list
order: it reports failure iff every mirror fails; at the first succeeding
mirror it stops with success, having attempted exactly the failing
earlier mirrors and that mirror (later mirrors are not attempted); and
when every mirror fails it has attempted them all. -/
theorem C4_mirror_fallback (outcome : String → Bool) :
    (∀ ms, (process_repo_file outcome ms).1 = false ↔ ∀ m ∈ ms, outcome m = false)
    ∧ (∀ xs m ys, (∀ x ∈ xs, outcome x = false) → outcome m = true →
        process_repo_file outcome (xs ++ m :: ys) = (true, xs ++ [m]))
    ∧ (∀ ms, (∀ m ∈ ms, outcome m = false) →
        process_repo_file outcome ms = (false, ms)) := by
  refine ⟨?_, ?_, process_repo_file_all_fail outcome⟩
  · intro ms
    induction ms with
    | nil => simp [process_repo_file]
    | cons m ms ih =>
      by_cases hm : outcome m = true
      · simp [process_repo_file, hm]
      · have hm' : outcome m = false := by
          cases h : outcome m
          · rfl
          · exact absurd h hm
        simp only [process_repo_file, hm', Bool.false_eq_true, if_false]
        constructor
        · intro h x hx
          rcases List.mem_cons.mp hx with rfl | hx'
          · exact hm'
          · exact (ih.mp h) x hx'
        · intro h
          exact ih.mpr fun x hx => h x (List.mem_cons_of_mem _ hx)
  · intro xs
    induction xs with
    | nil =>
      intro m ys _ hm
      simp [process_repo_file, hm]
    | cons x xs ih =>
      intro m ys hxs hm
      have hx : outcome x = false := hxs x (List.mem_cons_self _ _)
      have hxs' : ∀ y ∈ xs, outcome y = false := fun y hy => hxs y (List.mem_cons_of_mem _ hy)
      have hih := ih m ys hxs' hm
      simp only [List.cons_append, process_repo_file, hx, Bool.false_eq_true, if_false]
      exact congrArg (fun r => (r.1, x :: r.2)) hih

theorem C4_mirror_fallback_witness :
    process_repo_file (fun s => s = "good") ["bad1", "bad2", "good", "never"] =
      (true, ["bad1", "bad2", "good"])
    ∧ process_repo_file (fun s => s = "good") ["bad1", "bad2"] = (false, ["bad1", "bad2"]) := by
  have h := C4_mirror_fallback (fun s => s = "good")
  refine ⟨?_, ?_⟩
  · exact h.2.1 ["bad1", "bad2"] "good" ["never"] (by decide) (by decide)
  · exact h.2.2 ["bad1", "bad2"] (by decide)

/-! ## Catalog data model and sync engine

Rows of the android store's apps table (src/android_store/database.py,
CREATE TABLE apps; fields not consulted by the claims are elided) and of
the open store's apps table (src/open_store/database.py).  The payload
column stores the format-specific package blob; its version field is the
one read by the upgrade resolvers.
-/

structure FDPayload where
  version : Option String
deriving DecidableEq, Repr

structure FDRow where
  repository : String
  package_id : String
  repository_url : String
  name : String
  package : Option FDPayload
deriving DecidableEq, Repr

/-- PRIMARY KEY (repository, package_id) of the apps table. -/
def rowKey (r : FDRow) : String × String := (r.repository, r.package_id)

structure OSApp where
  id : String
  name : String
  tagline : String
deriving DecidableEq, Repr

def osAppKey (a : OSApp) : String := a.id

/-- One configured repository source: its ordered mirror list
(read_repo_list of the config file) and the catalog rows its index file
stages when the download succeeds (process_indexes). -/
structure RepoSource where
  mirrors : List String
  rows : List FDRow

/-- Embeds FDroidInterface.update_cache (src/android_store/android_store.py,
lines 151-184): fetch every configured source (mirrors tried in order by
process_repo_file), report success iff at least one source succeeded,
then unconditionally parse whatever index files the successful downloads
left in the cache directory and hand them to save_packages_to_db, which
replaces the whole apps table with them.  process_indexes deletes each
index file after extraction and failed downloads delete their partial
files, so the staged rows come exactly from this run's successful
sources.  Returns (overall_success, catalog contents after the call). -/
def fdroid_update_cache (outcome : String → Bool) (sources : List RepoSource)
    (db : List FDRow) : Bool × List FDRow :=
  let results := sources.map (fun s => (process_repo_file outcome s.mirrors).1)
  let overall := results.any (fun b => b)
  let staged := ((sources.filter (fun s => (process_repo_file outcome s.mirrors).1)).map
    RepoSource.rows).flatten
  (overall, ((runOps rowKey (fdroidReplaceProgram staged) ⟨db, db⟩).1).committed)

/-- Embeds OpenStoreInterface.fetch_all_apps (src/open_store/open_store.py,
lines 142-151): the fetched app list is saved via save_app_list only when
it is non-empty; an empty fetch reports failure and leaves the store
untouched.  Returns (success, catalog contents after the call). -/
def openstore_fetch_all_apps (apps : List OSApp) (db : List OSApp) : Bool × List OSApp :=
  if apps.isEmpty then (false, db)
  else (true, ((runOps osAppKey (openReplaceProgram apps) ⟨db, db⟩).1).committed)

def c1row : FDRow :=
  { repository := "fdroid", package_id := "org.example.app",
    repository_url := "https://mirror.example/repo", name := "Example",
    package := some { version := some "1.0" } }

/-- Claim C1 counterexample: an android-store sync in which the single
configured source fails on its only mirror reports overall failure, but
the catalog store does not keep its previous snapshot — the replace-all
still runs with an empty staged list and deletes every row. -/
theorem C1_counterexample :
    fdroid_update_cache (fun _ => false) [⟨["m1"], [c1row]⟩] [c1row] = (false, [])
    ∧ [c1row] ≠ ([] : List FDRow) := by
  constructor
  · rfl
  · intro h
    cases h

/-- Claim C1 (amended): when zero configured sources succeed, both
services report overall failure; the OpenStore catalog keeps its
previous snapshot, but the android-store catalog is emptied — its sync
unconditionally replaces the apps table with the rows staged from this
run's successful downloads, which is the empty set. -/
theorem C1_sync_zero_sources (outcome : String → Bool) (sources : List RepoSource)
    (db : List FDRow) (dbO : List OSApp)
    (h : ∀ s ∈ sources, ∀ m ∈ s.mirrors, outcome m = false) :
    fdroid_update_cache outcome sources db = (false, [])
    ∧ openstore_fetch_all_apps [] dbO = (false, dbO) := by
  constructor
  · have hres : ∀ s ∈ sources, (process_repo_file outcome s.mirrors).1 = false := by
      intro s hs
      rw [process_repo_file_all_fail outcome s.mirrors (h s hs)]
    have hfilter : sources.filter (fun s => (process_repo_file outcome s.mirrors).1) = [] := by
      rw [List.filter_eq_nil_iff]
      intro s hs
      rw [hres s hs]
      exact Bool.false_ne_true
    have hany : (sources.map (fun s => (process_repo_file outcome s.mirrors).1)).any
        (fun b => b) = false := by
      rw [List.any_eq_false]
      intro b hb
      rcases List.mem_map.mp hb with ⟨s, hs, rfl⟩
      rw [hres s hs]
      exact Bool.false_ne_true
    show (_, _) = (false, [])
    rw [show (sources.filter (fun s => (process_repo_file outcome s.mirrors).1)) = [] from hfilter]
    simp only [List.map_nil, List.flatten_nil]
    rw [hany]
    rfl
  · rfl

theorem C1_sync_zero_sources_witness :
    fdroid_update_cache (fun _ => false) [⟨["m1", "m2"], [c1row]⟩] [c1row] = (false, [])
    ∧ openstore_fetch_all_apps [] [⟨"app.id", "App", "tag"⟩] =
        (false, [⟨"app.id", "App", "tag"⟩]) := by
  have h := C1_sync_zero_sources (fun _ => false) [⟨["m1", "m2"], [c1row]⟩]
    [c1row] [⟨"app.id", "App", "tag"⟩] (by intro s _ m _; rfl)
  exact h

/-! ## Catalog store reads and ensure-populated

search_packages (src/android_store/database.py, lines 115-153) filters
rows by case-insensitive substring match on the name column
(LOWER(name) LIKE LOWER(%query%)); search_apps
(src/open_store/database.py, lines 141-189) matches name or tagline
(SQLite LIKE is case-insensitive for ASCII).  ensure_populated
(src/android_store/database.py, lines 96-113) receives the sync as the
update_func callback, exactly as in the source.
-/

def likeContains (q s : String) : Bool :=
  decide (q.toLower.toList <:+: s.toLower.toList)

def search_packages (db : List FDRow) (q : String) : List FDRow :=
  db.filter (fun r => likeContains q r.name)

def os_search_apps (db : List OSApp) (q : String) : List OSApp :=
  db.filter (fun a => likeContains q a.name || likeContains q a.tagline)

/-- The observable outcome of the update_func callback handed to
ensure_populated: the boolean it returns and the catalog contents it
leaves behind. -/
structure SyncOutcome where
  success : Bool
  newDb : List FDRow

/-- Embeds ensure_populated (src/android_store/database.py, lines
96-113): count the rows; when zero, run the sync callback and fail when
it fails.  Returns (ok, catalog afterwards, whether a sync ran). -/
def fd_ensure_populated (db : List FDRow) (sync : SyncOutcome) :
    Bool × List FDRow × Bool :=
  if db.length = 0 then (sync.success, sync.newDb, true)
  else (true, db, false)

/-- Embeds FDroidInterface.Search (src/android_store/android_store.py,
lines 192-206): after the session-manager ping, ensure_populated gates
the query; a failed ensure returns the empty result without querying the
store.  Returns (results, whether a sync ran). -/
def fd_Search (ping : Bool) (db : List FDRow) (sync : SyncOutcome) (q : String) :
    List FDRow × Bool :=
  if ping then
    let ep := fd_ensure_populated db sync
    if ep.1 then (search_packages ep.2.1 q, ep.2.2) else ([], ep.2.2)
  else ([], false)

/-- Embeds OpenStoreInterface.Search (src/open_store/open_store.py, lines
170-185): when the apps table is empty it runs fetch_all_apps (ignoring
its result) and then queries whatever the store now holds.  Returns
(results, whether a sync ran). -/
def os_Search (apps : List OSApp) (db : List OSApp) (q : String) :
    List OSApp × Bool :=
  if db.length = 0 then
    ((os_search_apps (openstore_fetch_all_apps apps db).2 q), true)
  else (os_search_apps db q, false)

/-- Claim C7: each service's Search checks the catalog row count first;
a zero count triggers a full sync, and when that sync fails the
operation returns its empty result (the android store aborts before
querying; the open store queries the still-empty table, which yields the
same empty result); a nonzero count triggers no sync. -/
theorem C7_ensure_populated_gates_reads (sync : SyncOutcome) (q : String)
    (r : FDRow) (dbA : List FDRow) (apps : List OSApp) (a : OSApp) (dbO : List OSApp) :
    (fd_Search true [] sync q).2 = true
    ∧ fd_Search true [] ⟨false, sync.newDb⟩ q = ([], true)
    ∧ fd_Search true (r :: dbA) sync q = (search_packages (r :: dbA) q, false)
    ∧ (os_Search apps [] q).2 = true
    ∧ os_Search [] [] q = ([], true)
    ∧ os_Search apps (a :: dbO) q = (os_search_apps (a :: dbO) q, false) := by
  refine ⟨?_, ?_, ?_, ?_, ?_, ?_⟩
  · rcases sync with ⟨succ, ndb⟩
    cases succ <;> simp [fd_Search, fd_ensure_populated]
  · simp [fd_Search, fd_ensure_populated]
  · simp [fd_Search, fd_ensure_populated]
  · simp [os_Search]
  · rfl
  · simp [os_Search]

/-! ## Upgrade resolver, Policy A (android store)

Embeds compare_installed_with_repo (src/android_store/andromeda.py,
lines 91-129): for each installed app, fetch the catalog rows with its
package id; skip rows with an empty payload; the payload's version
(defaulting to "N/A") is compared to the installed version by plain
string inequality, and the first differing row yields the candidate.
-/

structure AndroidApp where
  packageName : String
  name : String
  versionName : String
deriving DecidableEq, Repr

structure FDUpgradable where
  id : String
  repo_url : String
  current_version : String
  available_version : String
  name : String
deriving DecidableEq, Repr

def payloadVersion (p : FDPayload) : String := p.version.getD "N/A"

def fd_rows_for (catalog : List FDRow) (pid : String) : List FDRow :=
  catalog.filter (fun r => r.package_id = pid)

def fd_scan_rows (app : AndroidApp) : List FDRow → Option FDUpgradable
  | [] => none
  | r :: rs =>
    match r.package with
    | none => fd_scan_rows app rs
    | some p =>
      if payloadVersion p ≠ app.versionName then
        some { id := app.packageName, repo_url := r.repository_url,
               current_version := app.versionName,
               available_version := payloadVersion p, name := app.name }
      else fd_scan_rows app rs

def fd_candidate_for (catalog : List FDRow) (app : AndroidApp) : Option FDUpgradable :=
  fd_scan_rows app (fd_rows_for catalog app.packageName)

def compare_installed_with_repo (catalog : List FDRow) (installed : List AndroidApp) :
    List FDUpgradable :=
  installed.filterMap (fd_candidate_for catalog)

/-- Claim C6: upgrade policy A emits a candidate iff the catalog's stored
version string for the installed package id differs from the installed
version string (plain string comparison), and an installed package with
no catalog row is skipped silently, contributing nothing. -/
theorem C6_policy_a_string_inequality (catalog : List FDRow) (app : AndroidApp)
    (r : FDRow) (p : FDPayload) :
    (fd_rows_for catalog app.packageName = [] →
      fd_candidate_for catalog app = none
      ∧ compare_installed_with_repo catalog [app] = [])
    ∧ (fd_rows_for catalog app.packageName = [r] → r.package = some p →
      ((fd_candidate_for catalog app).isSome ↔ payloadVersion p ≠ app.versionName)
      ∧ (payloadVersion p ≠ app.versionName →
        fd_candidate_for catalog app =
          some { id := app.packageName, repo_url := r.repository_url,
                 current_version := app.versionName,
                 available_version := payloadVersion p, name := app.name })) := by
  constructor
  · intro hrows
    constructor
    · rw [fd_candidate_for, hrows]
      rfl
    · simp [compare_installed_with_repo, fd_candidate_for, hrows, fd_scan_rows]
  · intro hrows hpkg
    have hc : fd_candidate_for catalog app = fd_scan_rows app [r] := by
      rw [fd_candidate_for, hrows]
    constructor
    · rw [hc]
      simp only [fd_scan_rows, hpkg]
      by_cases hv : payloadVersion p = app.versionName
      · simp [hv, fd_scan_rows]
      · simp [hv]
    · intro hv
      rw [hc]
      simp only [fd_scan_rows, hpkg]
      rw [if_pos hv]

theorem C6_policy_a_witness :
    (StoreProvider.fd_candidate_for
      [{ repository := "fdroid", package_id := "org.x",
         repository_url := "https://r", name := "X",
         package := some { version := some "1.1" } }]
      { packageName := "org.x", name := "X", versionName := "1.0" }).isSome = true
    ∧ StoreProvider.fd_candidate_for
        [{ repository := "fdroid", package_id := "org.x",
           repository_url := "https://r", name := "X",
           package := some { version := some "1.0" } }]
        { packageName := "org.x", name := "X", versionName := "1.0" } = none
    ∧ StoreProvider.compare_installed_with_repo []
        [{ packageName := "org.gone", name := "Gone", versionName := "2" }] = [] := by
  have h1 := C6_policy_a_string_inequality
    [{ repository := "fdroid", package_id := "org.x",
       repository_url := "https://r", name := "X",
       package := some { version := some "1.1" } }]
    { packageName := "org.x", name := "X", versionName := "1.0" }
    { repository := "fdroid", package_id := "org.x",
      repository_url := "https://r", name := "X",
      package := some { version := some "1.1" } }
    { version := some "1.1" }
  have h2 := C6_policy_a_string_inequality
    [{ repository := "fdroid", package_id := "org.x",
       repository_url := "https://r", name := "X",
       package := some { version := some "1.0" } }]
    { packageName := "org.x", name := "X", versionName := "1.0" }
    { repository := "fdroid", package_id := "org.x",
      repository_url := "https://r", name := "X",
      package := some { version := some "1.0" } }
    { version := some "1.0" }
  have h3 := C6_policy_a_string_inequality []
    { packageName := "org.gone", name := "Gone", versionName := "2" }
    { repository := "fdroid", package_id := "org.gone",
      repository_url := "https://r", name := "Gone", package := none }
    { version := none }
  refine ⟨?_, ?_, ?_⟩
  · exact ((h1.2 (by decide) rfl).1).mpr (by decide)
  · have hiff := (h2.2 (by decide) rfl).1
    cases ho : fd_candidate_for
      [{ repository := "fdroid", package_id := "org.x",
         repository_url := "https://r", name := "X",
         package := some { version := some "1.0" } }]
      { packageName := "org.x", name := "X", versionName := "1.0" } with
    | none => rfl
    | some u =>
      exfalso
      exact (hiff.mp (by rw [ho]; rfl)) (by decide)
  · exact (h3.1 rfl).2

/-! ## Upgrade resolver, Policy B (open store)

Embeds the per-app body of OpenStoreInterface.GetUpgradable
(src/open_store/open_store.py, lines 310-376): filter the catalog's
download variants to the installed architecture or "all"; prefer the
installed channel, else the "focal" channel, else all compatible
variants; take the maximum by int(revision) (Python's max keeps the
first of equal maxima); emit a candidate iff the chosen variant's
version string differs from the installed version.
-/

structure OSDownload where
  architecture : String
  channel : String
  revision : Int
  version : String
deriving DecidableEq, Repr

structure OSInstalled where
  version : String
  channel : String
  architecture : String
deriving DecidableEq, Repr

/-- Python's max(list, key=revision): keep the current maximum, replace
only on a strictly greater key, so the first of equal maxima wins. -/
def maxByRevision : OSDownload → List OSDownload → OSDownload
  | best, [] => best
  | best, d :: ds => maxByRevision (if best.revision < d.revision then d else best) ds

def os_compatible (inst : OSInstalled) (downloads : List OSDownload) : List OSDownload :=
  downloads.filter (fun d => d.architecture = inst.architecture || d.architecture = "all")

/-- The latest_download selection of GetUpgradable: channel match first,
then the focal fallback, then any compatible variant. -/
def os_latest_download (channel : String) (compatible : List OSDownload) :
    Option OSDownload :=
  match compatible with
  | [] => none
  | c :: cs =>
    match compatible.filter (fun d => d.channel = channel) with
    | d :: ds => some (maxByRevision d ds)
    | [] =>
      match compatible.filter (fun d => d.channel = "focal") with
      | d :: ds => some (maxByRevision d ds)
      | [] => some (maxByRevision c cs)

/-- Candidate computation of GetUpgradable for one installed app: the
chosen variant when its version differs from the installed version. -/
def os_upgrade_candidate (inst : OSInstalled) (downloads : List OSDownload) :
    Option OSDownload :=
  match os_latest_download inst.channel (os_compatible inst downloads) with
  | none => none
  | some latest => if latest.version ≠ inst.version then some latest else none

/-- The spec's wording of Policy B, step one: keep only variants whose
architecture equals the installed architecture or is the wildcard
marker; among those prefer the installed channel, else the designated
default channel ("focal"), else all remaining matches. -/
def spec_preferred_variants (inst : OSInstalled) (downloads : List OSDownload) :
    List OSDownload :=
  let matching := downloads.filter
    (fun d => d.architecture = inst.architecture || d.architecture = "all")
  let sameChannel := matching.filter (fun d => d.channel = inst.channel)
  if sameChannel.isEmpty then
    let defChannel := matching.filter (fun d => d.channel = "focal")
    if defChannel.isEmpty then matching else defChannel
  else sameChannel

/-- The spec's wording of Policy B, step two: within the preferred
subset pick the maximum by integer revision; a candidate exists iff that
variant's version differs from the installed version. -/
def spec_policy_b (inst : OSInstalled) (downloads : List OSDownload) :
    Option OSDownload :=
  match spec_preferred_variants inst downloads with
  | [] => none
  | d :: ds =>
    let chosen := maxByRevision d ds
    if chosen.version ≠ inst.version then some chosen else none

lemma os_compatible_filter_channel_isEmpty (inst : OSInstalled)
    (downloads : List OSDownload) (ch : String) :
    ((os_compatible inst downloads).filter (fun d => d.channel = ch)).isEmpty = true ↔
      (os_compatible inst downloads).filter (fun d => d.channel = ch) = [] := by
  cases (os_compatible inst downloads).filter (fun d => d.channel = ch) with
  | nil => simp
  | cons d ds => simp [List.isEmpty]

/-- Claim C5: the code's Policy B agrees with the spec's description on
every input (architecture filter with wildcard, channel preference with
default-channel and any-variant fallbacks, maximum integer revision,
candidate iff the chosen version differs), and on the spec's worked
example it emits the variant with version "3". -/
theorem C5_policy_b_refines_spec :
    (∀ (inst : OSInstalled) (downloads : List OSDownload),
      os_upgrade_candidate inst downloads = spec_policy_b inst downloads)
    ∧ os_upgrade_candidate ⟨"2", "stable", "arm64"⟩
        [⟨"arm64", "stable", 3, "2"⟩, ⟨"arm64", "stable", 5, "3"⟩] =
        some ⟨"arm64", "stable", 5, "3"⟩ := by
  constructor
  · intro inst downloads
    rw [os_upgrade_candidate, spec_policy_b, spec_preferred_variants]
    show (match os_latest_download inst.channel (os_compatible inst downloads) with
      | none => none
      | some latest => if latest.version ≠ inst.version then some latest else none) = _
    rw [os_latest_download.eq_def]
    cases hc : os_compatible inst downloads with
    | nil =>
      simp only [os_compatible] at hc
      simp [hc]
    | cons c cs =>
      simp only [os_compatible] at hc
      rw [hc]
      cases hch : (c :: cs).filter (fun d => d.channel = inst.channel) with
      | cons d ds => simp [hch]
      | nil =>
        simp only [hch, List.isEmpty_nil, if_true]
        cases hfo : (c :: cs).filter (fun d => d.channel = "focal") with
        | cons d ds => simp [hfo]
        | nil => simp [hfo]
  · rfl

/-! ## Installed-state store

Embeds get_installed_apps and get_installed_app
(src/open_store/database.py, lines 254-341): while reading, a record
whose app_dir is empty or no longer exists on disk is skipped and its
row deleted; records whose directory exists are returned unchanged.  The
filesystem is a predicate on directory paths.
-/

structure InstRec where
  id : String
  name : String
  version : String
  channel : String
  architecture : String
  install_date : String
  app_dir : String
deriving DecidableEq, Repr

/-- app_dir_exists = os.path.exists(app_dir) if app_dir else False. -/
def dirOk (fs : String → Bool) (r : InstRec) : Bool :=
  if r.app_dir = "" then false else fs r.app_dir

/-- DELETE FROM installed_apps WHERE id = ?. -/
def deleteById (t : List InstRec) (i : String) : List InstRec :=
  t.filter (fun r => r.id ≠ i)

/-- One step of the cursor loop in get_installed_apps: a valid record is
appended to the result, an invalid one is deleted from the table. -/
def pruneStep (fs : String → Bool) (st : List InstRec × List InstRec) (r : InstRec) :
    List InstRec × List InstRec :=
  if dirOk fs r then (st.1 ++ [r], st.2) else (st.1, deleteById st.2 r.id)

/-- get_installed_apps: iterate the selected rows, returning
(result list, table afterwards). -/
def get_installed_apps (fs : String → Bool) (table : List InstRec) :
    List InstRec × List InstRec :=
  table.foldl (pruneStep fs) ([], table)

/-- get_installed_app: fetch the row with the given id; when its
directory is missing, return none and delete the row. -/
def get_installed_app (fs : String → Bool) (table : List InstRec) (i : String) :
    Option InstRec × List InstRec :=
  match table.find? (fun r => r.id = i) with
  | none => (none, table)
  | some r => if dirOk fs r then (some r, table) else (none, deleteById table i)

/-- The ids deleted by one pass of get_installed_apps. -/
def badIds (fs : String → Bool) (rows : List InstRec) : List String :=
  (rows.filter (fun r => !(dirOk fs r))).map InstRec.id

lemma pruneFold (fs : String → Bool) :
    ∀ (rows acc t : List InstRec),
      rows.foldl (pruneStep fs) (acc, t) =
        (acc ++ rows.filter (fun r => dirOk fs r),
         t.filter (fun x => decide (x.id ∉ badIds fs rows))) := by
  intro rows
  induction rows with
  | nil =>
    intro acc t
    simp [badIds]
  | cons r rows ih =>
    intro acc t
    cases hr : dirOk fs r with
    | true =>
      have hbad : badIds fs (r :: rows) = badIds fs rows := by
        simp [badIds, hr]
      simp only [List.foldl_cons, pruneStep, hr, if_true, ih (acc ++ [r]) t, hbad]
      rw [List.filter_cons_of_pos (by simp [hr])]
      simp
    | false =>
      have hbad : badIds fs (r :: rows) = r.id :: badIds fs rows := by
        simp [badIds, hr]
      simp only [List.foldl_cons, pruneStep, hr, Bool.false_eq_true, if_false, ih acc _, hbad]
      rw [List.filter_cons_of_neg (by simp [hr])]
      refine congrArg (Prod.mk _) ?_
      show (deleteById t r.id).filter _ = _
      rw [deleteById, List.filter_filter]
      refine List.filter_congr ?_
      intro x _
      by_cases h1 : x.id = r.id
      · simp [h1]
      · by_cases h2 : x.id ∈ badIds fs rows
        · simp [h1, h2]
        · simp [h1, h2]

lemma filter_length_split {α : Type} (p : α → Bool) :
    ∀ l : List α, (l.filter p).length + (l.filter (fun a => !(p a))).length = l.length := by
  intro l
  induction l with
  | nil => rfl
  | cons a l ih =>
    cases ha : p a <;> simp [List.filter_cons, ha, Nat.add_assoc, Nat.add_comm,
      Nat.add_left_comm, ih] <;> omega

lemma nodup_filter_badIds (fs : String → Bool) (table : List InstRec)
    (hnd : (table.map InstRec.id).Nodup) :
    table.filter (fun x => decide (x.id ∉ badIds fs table)) =
      table.filter (fun x => dirOk fs x) := by
  refine List.filter_congr ?_
  intro x hx
  cases hdx : dirOk fs x with
  | true =>
    have hnotmem : x.id ∉ badIds fs table := by
      intro hmem
      rcases List.mem_map.mp hmem with ⟨rr, hrr, hrid⟩
      have hrrmem : rr ∈ table := (List.mem_filter.mp hrr).1
      have hrrbad : !(dirOk fs rr) = true := by
        have := (List.mem_filter.mp hrr).2
        simpa using this
      have : rr = x := List.inj_on_of_nodup_map hnd hrrmem hx hrid
      rw [this, hdx] at hrrbad
      cases hrrbad
    simp [hnotmem, hdx]
  | false =>
    have hmem : x.id ∈ badIds fs table := by
      refine List.mem_map.mpr ⟨x, ?_, rfl⟩
      exact List.mem_filter.mpr ⟨hx, by simp [hdx]⟩
    simp [hmem, hdx]

lemma deleteById_length (i : String) :
    ∀ (table : List InstRec) (r : InstRec),
      (table.map InstRec.id).Nodup → r ∈ table → r.id = i →
      (deleteById table i).length + 1 = table.length := by
  intro table
  induction table with
  | nil => intro r _ hr; cases hr
  | cons a t ih =>
    intro r hnd hr hid
    have hnd' : (t.map InstRec.id).Nodup := (List.nodup_cons.mp hnd).2
    rcases List.mem_cons.mp hr with rfl | hrt
    · have hta : ∀ x ∈ t, x.id ≠ i := by
        intro x hx hxi
        exact (List.nodup_cons.mp hnd).1 (hid ▸ hxi ▸ List.mem_map_of_mem InstRec.id hx)
      have : deleteById (r :: t) i = t := by
        rw [deleteById, List.filter_cons_of_neg (by simp [hid])]
        rw [show t.filter (fun x => decide (x.id ≠ i)) = t from
          List.filter_eq_self.mpr (fun x hx => by simpa using hta x hx)]
      rw [this]
      simp
    · have hai : a.id ≠ i := by
        intro hae
        refine (List.nodup_cons.mp hnd).1 ?_
        have : r.id ∈ t.map InstRec.id := List.mem_map_of_mem InstRec.id hrt
        rw [hid, ← hae] at this
        exact this
      rw [deleteById, List.filter_cons_of_pos (by simpa using hai)]
      have := ih r hnd' hrt hid
      rw [deleteById] at this
      simp only [List.length_cons]
      omega

/-- Claim C8: one pass of the installed-state store's list() returns
exactly the records whose artifact directory exists (unchanged, in
order), deletes every record whose directory is missing (the row count
drops by one per pruned record), and get() of an id whose directory is
missing returns nothing and deletes that one row, while get() of a valid
id returns the record and leaves the table alone. -/
theorem C8_installed_store_prunes_missing_dirs (fs : String → Bool)
    (table : List InstRec) (i : String) (r : InstRec)
    (hnd : (table.map InstRec.id).Nodup) :
    ((get_installed_apps fs table).1 = table.filter (fun x => dirOk fs x)
      ∧ (get_installed_apps fs table).2 = table.filter (fun x => dirOk fs x)
      ∧ (get_installed_apps fs table).2.length +
          (table.filter (fun x => !(dirOk fs x))).length = table.length)
    ∧ (table.find? (fun x => x.id = i) = some r →
      (dirOk fs r = true → get_installed_app fs table i = (some r, table))
      ∧ (dirOk fs r = false →
        get_installed_app fs table i = (none, deleteById table i)
        ∧ (deleteById table i).length + 1 = table.length)) := by
  have hfold := pruneFold fs table [] table
  have hbad := nodup_filter_badIds fs table hnd
  constructor
  · refine ⟨?_, ?_, ?_⟩
    · rw [get_installed_apps, hfold]
      simp
    · rw [get_installed_apps, hfold, hbad]
    · rw [get_installed_apps, hfold, hbad]
      exact filter_length_split (fun x => dirOk fs x) table
  · intro hfind
    have hrid : r.id = i := by
      have := List.find?_some hfind
      simpa using this
    have hrmem : r ∈ table := List.mem_of_find?_eq_some hfind
    constructor
    · intro hok
      rw [get_installed_app, hfind]
      simp [hok]
    · intro hmiss
      refine ⟨?_, deleteById_length i table r hnd hrmem hrid⟩
      rw [get_installed_app, hfind]
      simp [hmiss]

theorem C8_installed_store_witness :
    (get_installed_apps (fun d => d = "/apps/keep")
      [⟨"keep.app", "Keep", "1", "stable", "arm64", "t1", "/apps/keep"⟩,
       ⟨"gone.app", "Gone", "2", "stable", "arm64", "t2", "/apps/gone"⟩]).2.length = 1
    ∧ get_installed_app (fun d => d = "/apps/keep")
        [⟨"keep.app", "Keep", "1", "stable", "arm64", "t1", "/apps/keep"⟩,
         ⟨"gone.app", "Gone", "2", "stable", "arm64", "t2", "/apps/gone"⟩] "gone.app" =
      (none, [⟨"keep.app", "Keep", "1", "stable", "arm64", "t1", "/apps/keep"⟩]) := by
  have h := C8_installed_store_prunes_missing_dirs (fun d => d = "/apps/keep")
    [⟨"keep.app", "Keep", "1", "stable", "arm64", "t1", "/apps/keep"⟩,
     ⟨"gone.app", "Gone", "2", "stable", "arm64", "t2", "/apps/gone"⟩] "gone.app"
    ⟨"gone.app", "Gone", "2", "stable", "arm64", "t2", "/apps/gone"⟩ (by decide)
  constructor
  · rw [(h.1).2.1]
    rfl
  · have := (h.2 (by decide)).2 (by decide)
    rw [this.1]
    rfl

/-! ## Idle supervisor

Embeds StoreManager.reset_idle_timer and _idle_countdown
(src/store_manager/store_manager.py, lines 40-52): reset_idle_timer
cancels the pending countdown task and starts a new one that, after the
timeout elapses uninterrupted, sets the (idempotent) shutdown event.
Time is discrete; a pending countdown started at time t has deadline
t + timeout and is cancelled by any reset strictly before its deadline.
fires counts the transitions of the shutdown event from clear to set.
-/

structure IdleState where
  deadline : Nat
  eventSet : Bool
  fires : Nat
deriving DecidableEq, Repr

/-- The pending countdown completes (deadline reached before anything
cancelled it): asyncio.Event.set is idempotent, so only a clear event
records a firing. -/
def fireCheck (s : IdleState) (now : Nat) : IdleState :=
  if s.deadline ≤ now then
    { deadline := s.deadline, eventSet := true,
      fires := if s.eventSet then s.fires else s.fires + 1 }
  else s

/-- reset_idle_timer at time t: whatever countdown already completed has
fired; an uncompleted one is cancelled; a fresh countdown starts with
deadline t + timeout. -/
def reset_idle_timer (timeout : Nat) (s : IdleState) (t : Nat) : IdleState :=
  let s1 := fireCheck s t
  { s1 with deadline := t + timeout }

/-- Run the supervisor: apply the listed resets in time order, then let
time advance to the observation horizon. -/
def runIdle (timeout : Nat) : IdleState → List Nat → Nat → IdleState
  | s, [], horizon => fireCheck s horizon
  | s, t :: ts, horizon => runIdle timeout (reset_idle_timer timeout s t) ts horizon

/-- Every gap between consecutive resets (and from the last reset to the
horizon) is shorter than the timeout. -/
def gapsShort (timeout : Nat) (prev : Nat) : List Nat → Nat → Bool
  | [], horizon => horizon < prev + timeout
  | t :: ts, horizon => (t < prev + timeout) && gapsShort timeout t ts horizon

/-- Some countdown elapses uninterrupted: a gap of at least the timeout
before the next reset, or before the horizon. -/
def someGapLong (timeout : Nat) (prev : Nat) : List Nat → Nat → Bool
  | [], horizon => prev + timeout ≤ horizon
  | t :: ts, horizon => (prev + timeout ≤ t) || someGapLong timeout t ts horizon

lemma runIdle_already_fired (timeout : Nat) :
    ∀ (ts : List Nat) (d : Nat) (n : Nat) (horizon : Nat),
      (runIdle timeout ⟨d, true, n⟩ ts horizon).eventSet = true
      ∧ (runIdle timeout ⟨d, true, n⟩ ts horizon).fires = n := by
  intro ts
  induction ts with
  | nil =>
    intro d n horizon
    simp only [runIdle, fireCheck]
    by_cases h : d ≤ horizon <;> simp [h]
  | cons t ts ih =>
    intro d n horizon
    simp only [runIdle, reset_idle_timer, fireCheck]
    by_cases h : d ≤ t <;> simp only [h, if_true, if_false, if_pos, if_neg] <;> exact ih _ n horizon

lemma runIdle_gaps_short (timeout : Nat) :
    ∀ (ts : List Nat) (prev : Nat) (n : Nat) (horizon : Nat),
      gapsShort timeout prev ts horizon = true →
      (runIdle timeout ⟨prev + timeout, false, n⟩ ts horizon).eventSet = false
      ∧ (runIdle timeout ⟨prev + timeout, false, n⟩ ts horizon).fires = n := by
  intro ts
  induction ts with
  | nil =>
    intro prev n horizon h
    simp only [gapsShort, decide_eq_true_eq] at h
    have hlt : ¬ (prev + timeout ≤ horizon) := by omega
    simp [runIdle, fireCheck, hlt]
  | cons t ts ih =>
    intro prev n horizon h
    simp only [gapsShort, Bool.and_eq_true, decide_eq_true_eq] at h
    have hlt : ¬ (prev + timeout ≤ t) := by omega
    simp only [runIdle, reset_idle_timer, fireCheck, hlt, if_false, if_neg]
    exact ih t n horizon h.2

lemma runIdle_some_gap (timeout : Nat) :
    ∀ (ts : List Nat) (prev : Nat) (n : Nat) (horizon : Nat),
      someGapLong timeout prev ts horizon = true →
      (runIdle timeout ⟨prev + timeout, false, n⟩ ts horizon).eventSet = true
      ∧ (runIdle timeout ⟨prev + timeout, false, n⟩ ts horizon).fires = n + 1 := by
  intro ts
  induction ts with
  | nil =>
    intro prev n horizon h
    simp only [someGapLong, decide_eq_true_eq] at h
    simp [runIdle, fireCheck, h]
  | cons t ts ih =>
    intro prev n horizon h
    simp only [someGapLong, Bool.or_eq_true, decide_eq_true_eq] at h
    by_cases hel : prev + timeout ≤ t
    · simp only [runIdle, reset_idle_timer, fireCheck, hel, if_true, if_pos]
      simp only [Bool.false_eq_true, if_false, if_neg]
      exact runIdle_already_fired timeout ts _ (n + 1) horizon
    · rcases h with h | h
      · exact absurd h hel
      · simp only [runIdle, reset_idle_timer, fireCheck, hel, if_false, if_neg]
        exact ih t n horizon h

/-- Claim C9: starting from a reset at time t0, when every gap between
consecutive resets (and to the horizon) is shorter than the timeout the
shutdown event never fires; when some countdown elapses uninterrupted
the event is set and fires exactly once, and no later elapse or reset
changes it (an already-set event never fires again, whatever happens
afterwards). -/
theorem C9_idle_supervisor (timeout t0 horizon : Nat) (ts more : List Nat)
    (d n h2 : Nat) :
    (gapsShort timeout t0 ts horizon = true →
      (runIdle timeout ⟨t0 + timeout, false, 0⟩ ts horizon).eventSet = false
      ∧ (runIdle timeout ⟨t0 + timeout, false, 0⟩ ts horizon).fires = 0)
    ∧ (someGapLong timeout t0 ts horizon = true →
      (runIdle timeout ⟨t0 + timeout, false, 0⟩ ts horizon).eventSet = true
      ∧ (runIdle timeout ⟨t0 + timeout, false, 0⟩ ts horizon).fires = 1)
    ∧ ((runIdle timeout ⟨d, true, n⟩ more h2).eventSet = true
      ∧ (runIdle timeout ⟨d, true, n⟩ more h2).fires = n) := by
  refine ⟨?_, ?_, runIdle_already_fired timeout more d n h2⟩
  · intro h
    exact runIdle_gaps_short timeout ts t0 0 horizon h
  · intro h
    exact runIdle_some_gap timeout ts t0 0 horizon h

theorem C9_idle_supervisor_witness :
    ((runIdle 120 ⟨0 + 120, false, 0⟩ [100, 200, 300] 350).eventSet = false
      ∧ (runIdle 120 ⟨0 + 120, false, 0⟩ [100, 200, 300] 350).fires = 0)
    ∧ ((runIdle 120 ⟨0 + 120, false, 0⟩ [100, 300, 500] 900).eventSet = true
      ∧ (runIdle 120 ⟨0 + 120, false, 0⟩ [100, 300, 500] 900).fires = 1) := by
  have h1 := C9_idle_supervisor 120 0 350 [100, 200, 300] [] 0 0 0
  have h2 := C9_idle_supervisor 120 0 900 [100, 300, 500] [] 0 0 0
  exact ⟨h1.1 (by decide), (h2.2).1 (by decide)⟩

/-! ## Task serializer

Embeds _process_task_queue (src/android_store/android_store.py, lines
92-128 and src/open_store/open_store.py, lines 104-140): a single worker
coroutine repeatedly takes (task, future) pairs from a FIFO asyncio
queue, awaits the task body to completion, and only then resolves the
caller's future with the body's value or its raised exception.  Bodies
run only inside this worker, so the observable trace of one queue run is
the concatenation, in enqueue order, of each task's body steps followed
by its resolution event.
-/

inductive TaskResult
  | value (v : Nat)
  | failure (e : String)
deriving DecidableEq, Repr

structure QTask where
  tid : Nat
  body : List Nat
  res : TaskResult
deriving DecidableEq, Repr

inductive QEv
  | bodyStep (tid : Nat) (step : Nat)
  | resolved (tid : Nat) (r : TaskResult)
deriving DecidableEq, Repr

def QEv.owner : QEv → Nat
  | .bodyStep t _ => t
  | .resolved t _ => t

/-- The events one loop iteration produces for one dequeued task:
its body's side-effect steps in order, then the future resolution
carrying the body's result (value or raised failure). -/
def taskBlock (t : QTask) : List QEv :=
  t.body.map (QEv.bodyStep t.tid) ++ [QEv.resolved t.tid t.res]

/-- The trace of the worker loop run over a queue of enqueued tasks. -/
def process_task_queue (ts : List QTask) : List QEv :=
  (ts.map taskBlock).flatten

lemma process_task_queue_cons (a : QTask) (ts : List QTask) :
    process_task_queue (a :: ts) = taskBlock a ++ process_task_queue ts := by
  simp [process_task_queue]

lemma owner_mem_block (u : QTask) (e : QEv) (he : e ∈ taskBlock u) :
    e.owner = u.tid := by
  rcases List.mem_append.mp he with h | h
  · rcases List.mem_map.mp h with ⟨s, _, rfl⟩
    rfl
  · rw [List.mem_singleton.mp h]
    rfl

lemma filter_block_of_ne (u : QTask) (i : Nat) (h : u.tid ≠ i) :
    (taskBlock u).filter (fun e => e.owner = i) = [] := by
  refine List.filter_eq_nil_iff.mpr ?_
  intro e he
  rw [owner_mem_block u e he]
  simp [h]

lemma filter_block_self (u : QTask) :
    (taskBlock u).filter (fun e => e.owner = u.tid) = taskBlock u := by
  refine List.filter_eq_self.mpr ?_
  intro e he
  rw [owner_mem_block u e he]
  simp

lemma filter_process_none (i : Nat) :
    ∀ ts : List QTask, (∀ u ∈ ts, u.tid ≠ i) →
      (process_task_queue ts).filter (fun e => e.owner = i) = []
  | [], _ => rfl
  | a :: ts, h => by
    rw [process_task_queue_cons, List.filter_append,
      filter_block_of_ne a i (h a (List.mem_cons_self _ _)),
      filter_process_none i ts (fun u hu => h u (List.mem_cons_of_mem _ hu))]
    rfl

/-- Claim C2: the worker's trace is, owner-wise, the concatenation of
one contiguous run per task in enqueue order (FIFO execution, no two
bodies interleave), and for each enqueued task the events it owns are
exactly its body steps in order followed by one resolution event that
carries that task's result — the completion handle resolves only after
the body has fully run. -/
theorem C2_task_queue_serializes (ts : List QTask)
    (hnd : (ts.map QTask.tid).Nodup) :
    ((process_task_queue ts).map QEv.owner =
      (ts.map (fun t => List.replicate (t.body.length + 1) t.tid)).flatten)
    ∧ (∀ t ∈ ts, (process_task_queue ts).filter (fun e => e.owner = t.tid) =
        t.body.map (QEv.bodyStep t.tid) ++ [QEv.resolved t.tid t.res]) := by
  constructor
  · rw [process_task_queue, List.map_flatten, List.map_map]
    refine congrArg List.flatten ?_
    refine List.map_congr_left ?_
    intro t _
    show (taskBlock t).map QEv.owner = _
    rw [taskBlock, List.map_append, List.map_map]
    have hbody : t.body.map (QEv.owner ∘ QEv.bodyStep t.tid) =
        List.replicate t.body.length t.tid := by
      rw [show QEv.owner ∘ QEv.bodyStep t.tid = fun _ => t.tid from rfl]
      exact List.map_const' t.body t.tid
    rw [hbody, show List.map QEv.owner [QEv.resolved t.tid t.res] = [t.tid] from rfl,
      ← List.replicate_succ' t.body.length t.tid]
  · induction ts with
    | nil => intro t ht; cases ht
    | cons a ts ih =>
      intro t ht
      have hnd' : (ts.map QTask.tid).Nodup := (List.nodup_cons.mp hnd).2
      rcases List.mem_cons.mp ht with rfl | htt
      · rw [process_task_queue_cons, List.filter_append, filter_block_self t]
        have hrest : ∀ u ∈ ts, u.tid ≠ t.tid := by
          intro u hu he
          exact (List.nodup_cons.mp hnd).1 (he ▸ List.mem_map_of_mem QTask.tid hu)
        rw [filter_process_none t.tid ts hrest, taskBlock, List.append_nil]
      · have hne : a.tid ≠ t.tid := by
          intro he
          exact (List.nodup_cons.mp hnd).1 (he ▸ List.mem_map_of_mem QTask.tid htt)
        rw [process_task_queue_cons, List.filter_append, filter_block_of_ne a t.tid hne,
          List.nil_append]
        exact ih hnd' t htt

theorem C2_task_queue_witness :
    (process_task_queue
        [⟨1, [10, 11], TaskResult.value 7⟩, ⟨2, [20], TaskResult.failure "boom"⟩]).map
        QEv.owner = [1, 1, 1, 2, 2]
    ∧ (process_task_queue
        [⟨1, [10, 11], TaskResult.value 7⟩, ⟨2, [20], TaskResult.failure "boom"⟩]).filter
        (fun e => e.owner = 2) =
      [QEv.bodyStep 2 20, QEv.resolved 2 (TaskResult.failure "boom")] := by
  have h := C2_task_queue_serializes
    [⟨1, [10, 11], TaskResult.value 7⟩, ⟨2, [20], TaskResult.failure "boom"⟩] (by decide)
  exact ⟨h.1, h.2 ⟨2, [20], TaskResult.failure "boom"⟩ (by decide)⟩

/-! ## UpgradePackages

Embeds FDroidInterface.UpgradePackages
(src/android_store/android_store.py, lines 326-376) and
OpenStoreInterface.UpgradePackages (src/open_store/open_store.py, lines
379-400).  The android method defaults an empty argument list to the ids
of the currently upgradable packages and returns True immediately,
touching no download, when that list is also empty; its inner loop scans
the upgradable records for each listed id: a failed download continues
the scan, a failed install aborts the whole call with False, a
successful install breaks to the next id.

The OpenStore method has the same intended structure, but its body runs
inside the single task-queue worker and awaits the decorated methods
self.GetUpgradable() (line 385, on the empty-argument path) and
self.Install(package_id) (line 396, on the non-empty path).  Those
method bodies are `return await self._queue_task(...)`: they put a new
(task, future) pair on the same queue and await the future, which only
the worker loop resolves (lines 104-125) — and the worker is blocked in
`await task()` running this very body, so it never returns to
queue.get().  The machine below embeds exactly this: a FIFO job queue, a
worker that is either idle (at queue.get()) or blocked awaiting the
future of a job it enqueued from inside the running body, and the outer
caller's future, resolved only when the worker finishes a body. -/

/-- Download/install outcomes for the android store's per-package
attempts (download_file and install_app results). -/
structure FDUpgEnv where
  downloadOk : FDUpgradable → Bool
  installOk : FDUpgradable → Bool

/-- The inner for-pkg-in-upgradables loop for one package id: returns
(continue-with-next-id?, download attempts made). -/
def fd_upgrade_scan (env : FDUpgEnv) (pid : String) :
    List FDUpgradable → Bool × List FDUpgradable
  | [] => (true, [])
  | pkg :: rest =>
    if pkg.id = pid then
      if env.downloadOk pkg then
        if env.installOk pkg then (true, [pkg])
        else (false, [pkg])
      else
        let r := fd_upgrade_scan env pid rest
        (r.1, pkg :: r.2)
    else fd_upgrade_scan env pid rest

/-- The outer for-package_id-in-upgrade_list loop: returns
(result, download attempts made, in order). -/
def fd_upgrade_loop (env : FDUpgEnv) (upgradables : List FDUpgradable) :
    List String → Bool × List FDUpgradable
  | [] => (true, [])
  | pid :: pids =>
    let r := fd_upgrade_scan env pid upgradables
    if r.1 then
      let rr := fd_upgrade_loop env upgradables pids
      (rr.1, r.2 ++ rr.2)
    else (false, r.2)

/-- FDroidInterface.UpgradePackages after a successful session-manager
ping: returns (result, download attempts, the computed upgrade list). -/
def fd_UpgradePackages (env : FDUpgEnv) (upgradables : List FDUpgradable)
    (packages : List String) : Bool × List FDUpgradable × List String :=
  let upgrade_list := if packages.isEmpty then upgradables.map FDUpgradable.id else packages
  if upgrade_list.isEmpty then (true, [], upgrade_list)
  else
    let r := fd_upgrade_loop env upgradables upgrade_list
    (r.1, r.2, upgrade_list)

/-- The jobs that reach the OpenStore service's task queue in a run of
UpgradePackages: the _upgrade_packages_task body itself and the two
decorated methods it awaits. -/
inductive OSJob
  | upgradeTask (packages : List String)
  | getUpgradableTask
  | installTask (pid : String)
deriving DecidableEq, Repr

/-- The first nested await the _upgrade_packages_task body reaches:
self.GetUpgradable() when the argument list is empty (line 385), else
self.Install(first listed id) (line 396). -/
def os_first_nested_call : List String → OSJob
  | [] => OSJob.getUpgradableTask
  | p :: _ => OSJob.installTask p

/-- The worker coroutine of _process_task_queue: parked at queue.get(),
or blocked inside `await task()` because the running body awaits the
future of a job it enqueued on its own queue. -/
inductive OSWorker
  | idle
  | blocked (j : OSJob)
deriving DecidableEq, Repr

/-- The observable state of one OpenStore UpgradePackages call: the
pending job queue, the worker, and the outer caller's future (none while
unresolved; only the worker loop ever sets it). -/
structure OSMachine where
  queue : List OSJob
  worker : OSWorker
  result : Option Bool
deriving DecidableEq, Repr

/-- One scheduler step.  A blocked worker cannot move: it sits in
`await task()` waiting for the body, the body awaits the nested job's
future, and that future is set only by this worker after its
`await task()` returns (lines 109-125) — a cycle, so the state is a
fixed point.  An idle worker dequeues the next job: the upgrade body
immediately enqueues its first nested call and blocks awaiting it; any
other job at the head of an idle worker's queue runs to completion and
resolves its own future, leaving the outer result untouched. -/
def osStep (m : OSMachine) : OSMachine :=
  match m.worker with
  | OSWorker.blocked _ => m
  | OSWorker.idle =>
    match m.queue with
    | [] => m
    | OSJob.upgradeTask pkgs :: rest =>
      { queue := rest ++ [os_first_nested_call pkgs],
        worker := OSWorker.blocked (os_first_nested_call pkgs),
        result := m.result }
    | _ :: rest => { queue := rest, worker := OSWorker.idle, result := m.result }

lemma fd_upgrade_scan_ids (env : FDUpgEnv) (pid : String) :
    ∀ us : List FDUpgradable, ∀ a ∈ (fd_upgrade_scan env pid us).2, a.id = pid := by
  intro us
  induction us with
  | nil => intro a ha; cases ha
  | cons pkg rest ih =>
    intro a ha
    by_cases hp : pkg.id = pid
    · simp only [fd_upgrade_scan, hp, if_true, if_pos] at ha
      by_cases hd : env.downloadOk pkg = true
      · rw [if_pos hd] at ha
        by_cases hi : env.installOk pkg = true
        · rw [if_pos hi] at ha
          rw [List.mem_singleton.mp ha]
          exact hp
        · rw [if_neg hi] at ha
          rw [List.mem_singleton.mp ha]
          exact hp
      · rw [if_neg hd] at ha
        rcases List.mem_cons.mp ha with rfl | ha'
        · exact hp
        · exact ih a ha'
    · simp only [fd_upgrade_scan, hp, if_false, if_neg] at ha
      exact ih a ha

lemma fd_upgrade_loop_ids (env : FDUpgEnv) (upgradables : List FDUpgradable) :
    ∀ pids : List String, ∀ a ∈ (fd_upgrade_loop env upgradables pids).2, a.id ∈ pids := by
  intro pids
  induction pids with
  | nil => intro a ha; cases ha
  | cons pid pids ih =>
    intro a ha
    simp only [fd_upgrade_loop] at ha
    by_cases hc : (fd_upgrade_scan env pid upgradables).1 = true
    · rw [if_pos hc] at ha
      rcases List.mem_append.mp ha with h | h
      · exact List.mem_cons.mpr (Or.inl (fd_upgrade_scan_ids env pid upgradables a h))
      · exact List.mem_cons.mpr (Or.inr (ih a h))
    · rw [if_neg hc] at ha
      exact List.mem_cons.mpr (Or.inl (fd_upgrade_scan_ids env pid upgradables a ha))

/-- Claim C10: the android UpgradePackages behaves as claimed — an empty
argument defaults the upgrade set to the ids of every currently
upgradable package, an empty computed set yields true with no download
attempt, and a non-empty argument restricts the attempts to the listed
ids.  The OpenStore UpgradePackages, however, can never exhibit the
claimed behavior: whatever the argument, its body's first nested await
enqueues onto its own single-worker queue and the machine reaches, in
one step, a blocked state that is a fixed point of the scheduler — the
caller's future is never resolved, so the call never returns true. -/
theorem C10_upgrade_packages (env : FDUpgEnv)
    (upgradables : List FDUpgradable) (p : String) (ps packages : List String)
    (n : Nat) :
    (fd_UpgradePackages env upgradables []).2.2 = upgradables.map FDUpgradable.id
    ∧ fd_UpgradePackages env [] [] = (true, [], [])
    ∧ (∀ a ∈ (fd_UpgradePackages env upgradables (p :: ps)).2.1, a.id ∈ p :: ps)
    ∧ (osStep^[n] ⟨[OSJob.upgradeTask packages], OSWorker.idle, none⟩).result = none
    ∧ (osStep^[n + 1] ⟨[OSJob.upgradeTask packages], OSWorker.idle, none⟩).worker
        = OSWorker.blocked (os_first_nested_call packages) := by
  have hstep : osStep ⟨[OSJob.upgradeTask packages], OSWorker.idle, none⟩ =
      ⟨[os_first_nested_call packages],
       OSWorker.blocked (os_first_nested_call packages), none⟩ := rfl
  have hfix : osStep ⟨[os_first_nested_call packages],
      OSWorker.blocked (os_first_nested_call packages), none⟩ =
      ⟨[os_first_nested_call packages],
       OSWorker.blocked (os_first_nested_call packages), none⟩ := rfl
  have hiter : ∀ k, osStep^[k] ⟨[os_first_nested_call packages],
      OSWorker.blocked (os_first_nested_call packages), none⟩ =
      ⟨[os_first_nested_call packages],
       OSWorker.blocked (os_first_nested_call packages), none⟩ :=
    fun k => Function.iterate_fixed hfix k
  refine ⟨?_, rfl, ?_, ?_, ?_⟩
  · rw [fd_UpgradePackages]
    simp only [List.isEmpty_nil, if_true, if_pos]
    cases h : (upgradables.map FDUpgradable.id).isEmpty <;> simp
  · intro a ha
    rw [fd_UpgradePackages] at ha
    simp only [List.isEmpty_cons, if_false, if_neg, Bool.false_eq_true] at ha
    exact fd_upgrade_loop_ids env upgradables (p :: ps) a ha
  · cases n with
    | zero => rfl
    | succ k =>
      rw [Function.iterate_succ_apply, hstep, hiter k]
  · rw [Function.iterate_succ_apply, hstep, hiter n]

theorem C10_upgrade_packages_witness :
    (∀ a ∈ (fd_UpgradePackages ⟨fun _ => true, fun _ => true⟩
        [⟨"org.a", "u", "1", "2", "A"⟩, ⟨"org.b", "u", "1", "3", "B"⟩]
        ["org.b"]).2.1, a.id ∈ ["org.b"])
    ∧ (osStep^[5] ⟨[OSJob.upgradeTask []], OSWorker.idle, none⟩).result = none
    ∧ (osStep^[5] ⟨[OSJob.upgradeTask ["org.c"]], OSWorker.idle, none⟩).result = none := by
  have h := C10_upgrade_packages ⟨fun _ => true, fun _ => true⟩
    [⟨"org.a", "u", "1", "2", "A"⟩, ⟨"org.b", "u", "1", "3", "B"⟩]
    "org.b" [] [] 5
  have h2 := C10_upgrade_packages ⟨fun _ => true, fun _ => true⟩
    [⟨"org.a", "u", "1", "2", "A"⟩] "x" [] ["org.c"] 5
  exact ⟨h.2.2.1, h.2.2.2.1, h2.2.2.2.1⟩

end StoreProvider
